import Mathlib

/-!
Shallow embedding of the text-to-pinyin alignment utilities of
`src/f5_tts/model/utils.py` (repository F5-TTS-Chinese-Enhanced).

The embedded code is `convert_char_to_pinyin` (the phonetic transcription
alignment engine) and `repetition_found` (the repetition filter).  The
external collaborators — `jieba.cut` (word segmentation), `lazy_pinyin`
(context-free romanizer) and `g2pw.lazy_pinyin` (context-aware romanizer) —
are opaque to the repository and are modelled as function parameters
gathered in a `Collab` structure; everything else is translated from the
Python source line by line.

Python runtime errors (an out-of-range list index, reading a name that was
never assigned) are modelled by `Option`: a `none` result is a raised
exception, a `some` result a normal return.
-/

/-- Number of bytes of the UTF-8 encoding of one character; mirrors what
`bytes(seg, "UTF-8")` contributes per code point in Python. -/
def utf8CharSize (c : Char) : Nat :=
  if c.toNat < 0x80 then 1
  else if c.toNat < 0x800 then 2
  else if c.toNat < 0x10000 then 3
  else 4

/-- Python's `len(bytes(s, "UTF-8"))`. -/
def utf8ByteLen (s : String) : Nat :=
  (s.data.map utf8CharSize).sum

/-- The engine's `is_chinese`: `"㄀" <= c <= "鿿"` (utils.py lines
163-166). -/
def is_chinese (c : Char) : Bool :=
  decide (0x3100 ≤ c.toNat) && decide (c.toNat ≤ 0x9fff)

/-- One ASCII letter, the character class `[a-zA-Z]`. -/
def isAsciiLetter (c : Char) : Bool :=
  ('a' ≤ c && c ≤ 'z') || ('A' ≤ c && c ≤ 'Z')

/-- One tone digit, the character class `[1-5]`. -/
def isToneDigit (c : Char) : Bool :=
  '1' ≤ c && c ≤ '5'

/-- The regex body `[a-zA-Z]+[1-5]?` matched against a whole character
list: one or more ASCII letters followed by at most one digit 1-5. -/
def tone3Core (cs : List Char) : Bool :=
  (!cs.isEmpty && cs.all isAsciiLetter) ||
  (match cs.getLast? with
   | some d => isToneDigit d && !cs.dropLast.isEmpty && cs.dropLast.all isAsciiLetter
   | none => false)

/-- The engine's `is_tone3_style` (utils.py lines 167-180):
`re.match(r"^[a-zA-Z]+[1-5]?$", text)`.  Python's `$` also matches just
before one final newline, so a trailing `'\n'` is tolerated. -/
def is_tone3_style (s : String) : Bool :=
  tone3Core s.data ||
  (s.data.getLast? == some '\n' && tone3Core s.data.dropLast)

/-- One entry of `custom_trans` (utils.py lines 159-161): semicolon to
comma, curly quotes to straight quotes; every other character unchanged. -/
def transChar (c : Char) : Char :=
  if c = ';' then ','
  else if c = '“' then '\"'
  else if c = '”' then '\"'
  else if c = '‘' then '\''
  else if c = '’' then '\''
  else c

/-- Line 185 of utils.py, `text.translate(custom_trans)`. -/
def pyTranslate (s : String) : String :=
  String.mk (s.data.map transChar)

/-- The engine's `translation_map` (utils.py lines 195-197): the single
entry `'shei2' -> 'shui2'`. -/
def translation_map : List (String × String) :=
  [("shei2", "shui2")]

/-- Python's `dict.get(k, d)` on an association list. -/
def translationGet (m : List (String × String)) (k d : String) : String :=
  match m.find? (fun kv => kv.fst == k) with
  | some kv => kv.snd
  | none => d

/-- The `filtered_sentence` of utils.py lines 190-198 as a function of the raw
context-aware romanizer output: keep the `is_tone3_style` entries, then
pass each through `translation_map.get(item, item)`. -/
def filteredOf (sentence : List String) : List String :=
  (sentence.filter is_tone3_style).map (fun item => translationGet translation_map item item)

/-- The characters of the Python string literal `" :'\""` used by the
boundary-space gate of utils.py line 207. -/
def boundaryChars : List Char :=
  [' ', ':', '\'', '\"']

/-- Python's substring test `needle in haystack` on strings, as used by
`char_list[-1] not in " :'\""`. -/
def listSub (needle haystack : List Char) : Bool :=
  (List.range (haystack.length + 1)).any
    (fun i => (haystack.drop i).take needle.length == needle)

/-- The three mutable per-line variables of the engine: `char_list`
(context-free output), `char_list_whole` (merged output) and the cursor
`j` into the filtered context-aware stream. -/
structure LineState where
  char_list : List String
  char_list_whole : List String
  j : Nat
deriving DecidableEq, Repr

/-- The literal branch of utils.py lines 206-211: a pure alphabet/symbol
segment is appended character by character, preceded by one boundary space
when the output is non-empty, the segment is more than one byte and the
last output element is not a substring of `" :'\""`. -/
def literalStep (st : LineState) (seg : String) : LineState :=
  let bl := utf8ByteLen seg
  let needSpace :=
    match st.char_list.getLast? with
    | none => false
    | some lastTok => decide (1 < bl) && !listSub lastTok.data boundaryChars
  let cl := if needSpace then st.char_list ++ [" "] else st.char_list
  let clw := if needSpace then st.char_list_whole ++ [" "] else st.char_list_whole
  { st with
    char_list := cl ++ seg.data.map Char.toString,
    char_list_whole := clw ++ seg.data.map Char.toString }

/-- One iteration of the pure-east-asian loop body of utils.py lines
214-228, for character `c` with context-free token `tok = seg_[i]`:
a Chinese-block character gets a boundary space in both outputs, its
context-free token in `char_list`, the stream token `filtered[j]` in
`char_list_whole` when `j` is in range (nothing otherwise), and advances
`j`; any other character gets its context-free token in both outputs. -/
def eaStep (filtered : List String) (tok : String) (c : Char) (st : LineState) : LineState :=
  let chinese := is_chinese c
  let cl := if chinese then st.char_list ++ [" "] else st.char_list
  let clw := if chinese then st.char_list_whole ++ [" "] else st.char_list_whole
  let cl := cl ++ [tok]
  if chinese then
    { char_list := cl,
      char_list_whole := if st.j < filtered.length then clw ++ [filtered.getD st.j ""] else clw,
      j := st.j + 1 }
  else
    { char_list := cl, char_list_whole := clw ++ [tok], j := st.j }

/-- The indexed loop `for i, c in enumerate(seg)` of utils.py line 214,
pairing the i-th character with `seg_[i]`; running out of context-free
tokens is Python's `IndexError`, hence `none`. -/
def eaLoop (filtered : List String) : List Char → List String → LineState → Option LineState
  | [], _, st => some st
  | _ :: _, [], _ => none
  | c :: cs, tok :: toks, st => eaLoop filtered cs toks (eaStep filtered tok c st)

/-- One iteration of the mixed-segment loop body of utils.py lines
231-246: ASCII-range characters (`ord(c) < 256`) pass through, a
Chinese-block character gets a boundary space, its single-character
context-free romanization in `char_list` and the stream token in
`char_list_whole` when the cursor is in range (nothing otherwise, the
cursor advancing either way), and any other character passes through. -/
def mixedStep (cf : String → List String) (filtered : List String)
    (st : LineState) (c : Char) : LineState :=
  if c.toNat < 256 then
    { st with
      char_list := st.char_list ++ [c.toString],
      char_list_whole := st.char_list_whole ++ [c.toString] }
  else if is_chinese c then
    { char_list := st.char_list ++ [" "] ++ cf c.toString,
      char_list_whole :=
        (st.char_list_whole ++ [" "]) ++
          (if st.j < filtered.length then [filtered.getD st.j ""] else []),
      j := st.j + 1 }
  else
    { st with
      char_list := st.char_list ++ [c.toString],
      char_list_whole := st.char_list_whole ++ [c.toString] }

/-- One segment of the walk of utils.py lines 204-246, dispatching on the
byte-width heuristic: literal when the byte length equals the character
count, pure east asian when `polyphone` is set and the byte length is
three times the character count, mixed otherwise. -/
def processSeg (polyphone : Bool) (cf : String → List String) (filtered : List String)
    (st : LineState) (seg : String) : Option LineState :=
  if utf8ByteLen seg = seg.length then
    some (literalStep st seg)
  else if polyphone && decide (utf8ByteLen seg = 3 * seg.length) then
    eaLoop filtered seg.data (cf seg) st
  else
    some (seg.data.foldl (mixedStep cf filtered) st)

/-- The external collaborators of the engine: `jieba.cut` (`segment`),
`lazy_pinyin` with `Style.TONE3` and tone sandhi (`cf`) and
`g2pw.lazy_pinyin` with `Style.TONE3` (`ca`). -/
structure Collab where
  segment : String → List String
  cf : String → List String
  ca : String → List String

/-- One iteration of `for text in text_list` (utils.py lines 182-248):
normalize punctuation, run the sentence-level romanizer, filter its
output, then walk the segments.  Returns the final per-line state and the
line's filtered context-aware stream. -/
def processLine (C : Collab) (polyphone : Bool) (text : String) :
    Option (LineState × List String) :=
  match (C.segment (pyTranslate text)).foldlM
      (processSeg polyphone C.cf (filteredOf (C.ca (pyTranslate text)))) ⟨[], [], 0⟩ with
  | some st => some (st, filteredOf (C.ca (pyTranslate text)))
  | none => none

/-- The batch-level accumulators of the engine: `final_text_list`,
`final_text_list_whole`, and the values of `j` and `filtered_sentence`
left over from the last processed line (`none` before any line ran). -/
structure BatchState where
  final_text_list : List (List String)
  final_text_list_whole : List (List String)
  last : Option (Nat × List String)

/-- The whole `for text in text_list` loop of utils.py lines 182-248. -/
def processBatch (C : Collab) (polyphone : Bool) : List String → BatchState → Option BatchState
  | [], b => some b
  | text :: rest, b =>
    match processLine C polyphone text with
    | none => none
    | some (st, filtered) =>
      processBatch C polyphone rest
        { final_text_list := b.final_text_list ++ [st.char_list],
          final_text_list_whole := b.final_text_list_whole ++ [st.char_list_whole],
          last := some (st.j, filtered) }

/-- The engine `convert_char_to_pinyin` of utils.py lines 147-257.  The result pairs
the returned list of token sequences with the diagnostic the mismatch
branch prints (`some (j, len(filtered_sentence))`, utils.py line 251, or
`none` when the merged sequences are returned).  For an empty batch the
final check of line 250 reads `j` and `filtered_sentence` before any
assignment, a Python `UnboundLocalError`, modelled as `none`. -/
def convert_char_to_pinyin (C : Collab) (polyphone : Bool) (text_list : List String) :
    Option (List (List String) × Option (Nat × Nat)) :=
  match processBatch C polyphone text_list ⟨[], [], none⟩ with
  | none => none
  | some b =>
    match b.last with
    | none => none
    | some (j, filtered) =>
      if j ≠ filtered.length then some (b.final_text_list, some (j, filtered.length))
      else some (b.final_text_list_whole, none)

/-- Number of Chinese-block characters of one segment. -/
def chineseCountSeg (seg : String) : Nat :=
  (seg.data.filter is_chinese).length

/-- Number of Chinese-block characters encountered while walking a list of
segments. -/
def chineseCount (segs : List String) : Nat :=
  (segs.map chineseCountSeg).sum

/-- The literal-segment pass-through: every segment processed by the
literal branch alone, starting from the empty output. -/
def literalPassThrough (segs : List String) : List String :=
  (segs.foldl literalStep ⟨[], [], 0⟩).char_list

/-- The `char_list` of one line, `[]` when the line raised. -/
def lineCf (C : Collab) (polyphone : Bool) (t : String) : List String :=
  match processLine C polyphone t with
  | some (st, _) => st.char_list
  | none => []

/-- The `char_list_whole` of one line, `[]` when the line raised. -/
def lineWhole (C : Collab) (polyphone : Bool) (t : String) : List String :=
  match processLine C polyphone t with
  | some (st, _) => st.char_list_whole
  | none => []

/-- The `(j, filtered_sentence)` pair a line leaves behind. -/
def lineLast (C : Collab) (polyphone : Bool) (t : String) : Option (Nat × List String) :=
  match processLine C polyphone t with
  | some (st, f) => some (st.j, f)
  | none => none

/-- The engine's `translation_map.get(item, item)` applied to one entry:
`shei2` becomes `shui2`, everything else is unchanged. -/
def substShei (x : String) : String :=
  if x = "shei2" then "shui2" else x

/-- The index range `range(len(text) - length + 1)` of utils.py line 265
(empty when the window is longer than the text). -/
def windowIdxs (cs : List Char) (length : Nat) : List Nat :=
  if length ≤ cs.length then List.range (cs.length - length + 1) else []

/-- How often the window `p` occurs among the overlapping windows of
`text` of the given length: `pattern_count[p]` of utils.py lines 264-267. -/
def patternCount (text : String) (length : Nat) (p : List Char) : Nat :=
  ((windowIdxs text.data length).filter
    (fun i => (text.data.drop i).take length == p)).length

/-- The filter `repetition_found` of utils.py lines 263-271: true iff some window's
count exceeds the tolerance. -/
def repetition_found (text : String) (length tolerance : Nat) : Bool :=
  (windowIdxs text.data length).any
    (fun i => tolerance < patternCount text length ((text.data.drop i).take length))

/-! ### Helper lemmas -/

/-- Applying `translation_map.get(item, item)` is the `shei2`-to-`shui2`
substitution. -/
lemma translationGet_eq (x : String) : translationGet translation_map x x = substShei x := by
  by_cases h : x = "shei2"
  · subst h; rfl
  · have hb : ("shei2" == x) = false := beq_eq_false_iff_ne.mpr (Ne.symm h)
    simp [translationGet, translation_map, List.find?, substShei, hb, h]

/-- The filtered context-aware stream is the `is_tone3_style` filter of the
raw sentence output with `substShei` applied entrywise. -/
lemma filteredOf_map (sentence : List String) :
    filteredOf sentence = (sentence.filter is_tone3_style).map substShei := by
  unfold filteredOf
  exact List.map_congr_left (fun x _ => translationGet_eq x)

/-- Each UTF-8 character is at least one byte. -/
lemma utf8CharSize_pos (c : Char) : 1 ≤ utf8CharSize c := by
  unfold utf8CharSize
  split <;> try omega
  split <;> try omega
  split <;> omega

/-- A one-byte character is ASCII. -/
lemma utf8CharSize_eq_one (c : Char) (h : utf8CharSize c = 1) : c.toNat < 0x80 := by
  unfold utf8CharSize at h
  split at h
  · assumption
  · split at h
    · omega
    · split at h <;> omega

/-- An ASCII character is one byte. -/
lemma utf8CharSize_ascii (c : Char) (h : c.toNat < 0x80) : utf8CharSize c = 1 := by
  unfold utf8CharSize
  simp [h]

/-- Characters are at least one byte, summed. -/
lemma length_le_sizes : ∀ (l : List Char), l.length ≤ (l.map utf8CharSize).sum := by
  intro l
  induction l with
  | nil => simp
  | cons b l ih =>
    have := utf8CharSize_pos b
    simp only [List.map_cons, List.sum_cons, List.length_cons]
    omega

/-- A character list whose total UTF-8 size equals its length has only
one-byte characters. -/
lemma sizes_all_one : ∀ (l : List Char), (l.map utf8CharSize).sum = l.length →
    ∀ c ∈ l, utf8CharSize c = 1 := by
  intro l
  induction l with
  | nil => intro _ c hc; cases hc
  | cons a l ih =>
    intro h c hc
    have ha : 1 ≤ utf8CharSize a := utf8CharSize_pos a
    have hrest : l.length ≤ (l.map utf8CharSize).sum := length_le_sizes l
    simp only [List.map_cons, List.sum_cons, List.length_cons] at h
    rcases List.mem_cons.mp hc with hc | hc
    · subst hc; omega
    · exact ih (by omega) c hc

/-- A segment classified literal (byte length equals character count) is
pure ASCII. -/
lemma ascii_of_literal (seg : String) (h : utf8ByteLen seg = seg.length) :
    ∀ c ∈ seg.data, c.toNat < 0x80 := by
  intro c hc
  exact utf8CharSize_eq_one c (sizes_all_one seg.data h c hc)

/-- Summing the constant 1 over a list gives its length. -/
lemma sum_map_one : ∀ (l : List Char), (l.map (fun _ => (1 : Nat))).sum = l.length := by
  intro l
  induction l with
  | nil => rfl
  | cons a l ih =>
    simp only [List.map_cons, List.sum_cons, List.length_cons, ih]
    omega

/-- An all-ASCII string is classified literal. -/
lemma literal_of_ascii (seg : String) (h : ∀ c ∈ seg.data, c.toNat < 0x80) :
    utf8ByteLen seg = seg.length := by
  unfold utf8ByteLen
  have hmap : seg.data.map utf8CharSize = seg.data.map (fun _ => (1 : Nat)) :=
    List.map_congr_left (fun c hc => utf8CharSize_ascii c (h c hc))
  rw [hmap, sum_map_one]
  rfl

/-- ASCII characters are outside the Chinese block. -/
lemma not_chinese_of_ascii (c : Char) (h : c.toNat < 0x100) : is_chinese c = false := by
  unfold is_chinese
  have : ¬ (0x3100 ≤ c.toNat) := by omega
  simp [this]

/-- Chinese-block characters are above the `ord(c) < 256` range. -/
lemma chinese_not_lt256 (c : Char) (h : is_chinese c = true) : ¬ c.toNat < 256 := by
  unfold is_chinese at h
  simp only [Bool.and_eq_true, decide_eq_true_eq] at h
  omega

/-- The literal branch does not move the cursor. -/
lemma literalStep_j (st : LineState) (seg : String) : (literalStep st seg).j = st.j := rfl

/-- The cursor after one east-asian loop iteration. -/
lemma eaStep_j (filtered : List String) (tok : String) (c : Char) (st : LineState) :
    (eaStep filtered tok c st).j = if is_chinese c then st.j + 1 else st.j := by
  unfold eaStep
  by_cases h : is_chinese c <;> simp [h]

/-- The east-asian loop advances the cursor once per Chinese-block
character. -/
lemma eaLoop_j (filtered : List String) :
    ∀ (cs : List Char) (toks : List String) (st st' : LineState),
    eaLoop filtered cs toks st = some st' →
    st'.j = st.j + (cs.filter is_chinese).length := by
  intro cs
  induction cs with
  | nil =>
    intro toks st st' h
    simp [eaLoop] at h
    simp [← h]
  | cons c cs ih =>
    intro toks st st' h
    cases toks with
    | nil => simp [eaLoop] at h
    | cons tok toks =>
      have h2 := ih toks _ st' h
      rw [h2, eaStep_j]
      by_cases hc : is_chinese c <;> simp [List.filter_cons, hc] <;> omega

/-- The mixed branch advances the cursor once per Chinese-block
character. -/
lemma mixedFold_j (cf : String → List String) (filtered : List String) :
    ∀ (cs : List Char) (st : LineState),
    (cs.foldl (mixedStep cf filtered) st).j = st.j + (cs.filter is_chinese).length := by
  intro cs
  induction cs with
  | nil => intro st; simp
  | cons c cs ih =>
    intro st
    have hstep : (mixedStep cf filtered st c).j = if is_chinese c then st.j + 1 else st.j := by
      unfold mixedStep
      by_cases h256 : c.toNat < 256
      · simp [h256, not_chinese_of_ascii c (by omega)]
      · by_cases hc : is_chinese c <;> simp [h256, hc]
    simp only [List.foldl_cons, ih, hstep, List.filter_cons]
    by_cases hc : is_chinese c <;> simp [hc] <;> omega

/-- One segment advances the cursor by its Chinese-block character
count. -/
lemma processSeg_j (polyphone : Bool) (cf : String → List String) (filtered : List String)
    (st st' : LineState) (seg : String)
    (h : processSeg polyphone cf filtered st seg = some st') :
    st'.j = st.j + chineseCountSeg seg := by
  unfold processSeg at h
  split at h
  · rename_i hlit
    have hnone : (seg.data.filter is_chinese) = [] := by
      apply List.filter_eq_nil_iff.mpr
      intro c hc
      have := ascii_of_literal seg hlit c hc
      simp [not_chinese_of_ascii c (by omega)]
    have := Option.some.inj h
    rw [← this, literalStep_j]
    unfold chineseCountSeg
    rw [hnone]
    simp
  · split at h
    · have := eaLoop_j filtered seg.data (cf seg) st st' h
      rw [this]
      rfl
    · have := Option.some.inj h
      rw [← this, mixedFold_j]
      rfl

/-- Walking all segments advances the cursor by the total Chinese-block
character count. -/
lemma foldSegs_j (polyphone : Bool) (cf : String → List String) (filtered : List String) :
    ∀ (segs : List String) (st st' : LineState),
    segs.foldlM (processSeg polyphone cf filtered) st = some st' →
    st'.j = st.j + chineseCount segs := by
  intro segs
  induction segs with
  | nil =>
    intro st st' h
    rw [List.foldlM_nil] at h
    have hst := Option.some.inj h
    subst hst
    simp [chineseCount]
  | cons seg segs ih =>
    intro st st' h
    rw [List.foldlM_cons] at h
    cases hmid : processSeg polyphone cf filtered st seg with
    | none => rw [hmid] at h; simp at h
    | some mid =>
      rw [hmid] at h
      have h' : segs.foldlM (processSeg polyphone cf filtered) mid = some st' := h
      have h1 := processSeg_j polyphone cf filtered st mid seg hmid
      have h2 := ih mid st' h'
      rw [h2, h1]
      simp only [chineseCount, List.map_cons, List.sum_cons]
      omega

/-- A successfully processed line ends with its cursor at the number of
Chinese-block characters among its segments, and its filtered stream is
the filtered sentence-level romanization. -/
lemma processLine_j (C : Collab) (polyphone : Bool) (text : String)
    (st : LineState) (f : List String)
    (h : processLine C polyphone text = some (st, f)) :
    st.j = chineseCount (C.segment (pyTranslate text)) ∧
    f = filteredOf (C.ca (pyTranslate text)) := by
  unfold processLine at h
  cases hfold : (C.segment (pyTranslate text)).foldlM
      (processSeg polyphone C.cf (filteredOf (C.ca (pyTranslate text))))
      (⟨[], [], 0⟩ : LineState) with
  | none => rw [hfold] at h; simp at h
  | some st0 =>
    rw [hfold] at h
    simp only [Option.some.injEq, Prod.mk.injEq] at h
    obtain ⟨h1, h2⟩ := h
    constructor
    · rw [← h1]
      have := foldSegs_j polyphone C.cf _ _ _ _ hfold
      simpa using this
    · exact h2.symm

/-- Folding string append collects the character data. -/
lemma foldl_append_data : ∀ (L : List String) (a : String),
    (L.foldl (fun x y => x ++ y) a).data = a.data ++ (L.map String.data).flatten := by
  intro L
  induction L with
  | nil => intro a; simp
  | cons s L ih =>
    intro a
    simp only [List.foldl_cons, List.map_cons, List.flatten_cons]
    rw [ih (a ++ s), String.data_append]
    simp [List.append_assoc]

/-- The characters of a joined string list. -/
lemma join_data (L : List String) : (String.join L).data = (L.map String.data).flatten := by
  have h : String.join L = L.foldl (fun x y => x ++ y) "" := rfl
  rw [h, foldl_append_data]
  rfl

/-- Flattening singleton character lists is the identity. -/
lemma flatten_singleton : ∀ (l : List Char), (l.map (fun c => [c])).flatten = l := by
  intro l
  induction l with
  | nil => rfl
  | cons c l ih => simp only [List.map_cons, List.flatten_cons, ih]; rfl

/-- Joining the one-character strings of a string gives it back. -/
lemma join_map_toString (s : String) : String.join (s.data.map Char.toString) = s := by
  apply String.ext
  rw [join_data, List.map_map]
  have h : (String.data ∘ Char.toString) = fun c => [c] := rfl
  rw [h, flatten_singleton]

/-- A character of a member segment is a character of the joined string. -/
lemma mem_data_of_join (segs : List String) (s : String) (hjoin : String.join segs = s)
    (seg : String) (hs : seg ∈ segs) (c : Char) (hc : c ∈ seg.data) : c ∈ s.data := by
  rw [← hjoin, join_data]
  exact List.mem_flatten.mpr ⟨seg.data, List.mem_map_of_mem _ hs, hc⟩

/-- Running the whole batch loop when every line succeeds: the two
accumulators collect each line's `char_list` and `char_list_whole` in
input order, and the leftover `(j, filtered_sentence)` pair is the last
line's. -/
lemma processBatch_eq (C : Collab) (p : Bool) :
    ∀ (ts : List String) (b : BatchState),
    (∀ t ∈ ts, (processLine C p t).isSome) →
    processBatch C p ts b = some
      { final_text_list := b.final_text_list ++ ts.map (lineCf C p),
        final_text_list_whole := b.final_text_list_whole ++ ts.map (lineWhole C p),
        last := match ts.getLast? with
                | none => b.last
                | some t => lineLast C p t } := by
  intro ts
  induction ts with
  | nil =>
    intro b h
    simp [processBatch]
  | cons t rest ih =>
    intro b h
    have ht : (processLine C p t).isSome := h t (List.mem_cons_self t rest)
    obtain ⟨pr, hpl⟩ := Option.isSome_iff_exists.mp ht
    obtain ⟨st, f⟩ := pr
    unfold processBatch
    rw [hpl]
    show processBatch C p rest
        { final_text_list := b.final_text_list ++ [st.char_list],
          final_text_list_whole := b.final_text_list_whole ++ [st.char_list_whole],
          last := some (st.j, f) } = _
    rw [ih _ (fun x hx => h x (List.mem_cons_of_mem t hx))]
    cases rest with
    | nil => simp [lineCf, lineWhole, lineLast, hpl]
    | cons r rs =>
      obtain ⟨x, hx⟩ : ∃ x, (r :: rs).getLast? = some x :=
        ⟨(r :: rs).getLast (by simp), List.getLast?_eq_getLast _ (by simp)⟩
      simp [lineCf, lineWhole, hpl, List.getLast?_cons_cons, hx]

/-- A literal segment takes the literal branch. -/
lemma processSeg_literal (p : Bool) (cf : String → List String) (f : List String)
    (st : LineState) (seg : String) (h : utf8ByteLen seg = seg.length) :
    processSeg p cf f st seg = some (literalStep st seg) := by
  unfold processSeg
  rw [if_pos h]

/-- A walk over literal segments only is the pure fold of the literal
branch. -/
lemma foldSegs_literal (p : Bool) (cf : String → List String) (f : List String) :
    ∀ (segs : List String) (st : LineState),
    (∀ seg ∈ segs, utf8ByteLen seg = seg.length) →
    segs.foldlM (processSeg p cf f) st = some (segs.foldl literalStep st) := by
  intro segs
  induction segs with
  | nil =>
    intro st h
    rfl
  | cons seg segs ih =>
    intro st h
    rw [List.foldlM_cons, processSeg_literal p cf f st seg (h seg (List.mem_cons_self _ _))]
    show segs.foldlM (processSeg p cf f) (literalStep st seg)
        = some ((seg :: segs).foldl literalStep st)
    rw [List.foldl_cons]
    exact ih (literalStep st seg) (fun x hx => h x (List.mem_cons_of_mem _ hx))

/-- The literal branch keeps the two outputs in lockstep. -/
lemma literalStep_preserve (st : LineState) (seg : String)
    (h : st.char_list = st.char_list_whole) :
    (literalStep st seg).char_list = (literalStep st seg).char_list_whole := by
  unfold literalStep
  simp only [← h]

/-- Folding the literal branch keeps the two outputs in lockstep. -/
lemma foldlitStep_preserve : ∀ (segs : List String) (st : LineState),
    st.char_list = st.char_list_whole →
    (segs.foldl literalStep st).char_list = (segs.foldl literalStep st).char_list_whole := by
  intro segs
  induction segs with
  | nil => intro st h; exact h
  | cons seg segs ih =>
    intro st h
    rw [List.foldl_cons]
    exact ih (literalStep st seg) (literalStep_preserve st seg h)

/-- Folding the literal branch does not move the cursor. -/
lemma foldlitStep_j : ∀ (segs : List String) (st : LineState),
    (segs.foldl literalStep st).j = st.j := by
  intro segs
  induction segs with
  | nil => intro st; rfl
  | cons seg segs ih =>
    intro st
    rw [List.foldl_cons]
    rw [ih (literalStep st seg), literalStep_j]

/-! ### Claim theorems -/

/-- Claim C10: `convert_char_to_pinyin` requires a non-empty batch — on the
empty input list the final mismatch check reads `j` and `filtered_sentence`
before any assignment, so the call fails (returns `none` in this model,
an `UnboundLocalError` in Python) and never returns an empty list of
sequences. -/
theorem convert_empty_batch_none :
    ∀ (C : Collab) (p : Bool),
      convert_char_to_pinyin C p [] = none ∧
      ∀ res : List (List String), convert_char_to_pinyin C p [] ≠ some (res, none) := by
  intro C p
  refine ⟨rfl, ?_⟩
  intro res h
  rw [show convert_char_to_pinyin C p [] = none from rfl] at h
  exact Option.noConfusion h

/-- Claim C8: `repetition_found` counts every overlapping window of the
given length and returns true iff some pattern's count exceeds the
tolerance; on `"ababab"` with window 2 and tolerance 2 it returns true,
on `"abcdef"` false. -/
theorem repetition_found_spec :
    (∀ (t : String) (L tol : Nat),
        repetition_found t L tol = true ↔ ∃ p : List Char, tol < patternCount t L p) ∧
    repetition_found "ababab" 2 2 = true ∧
    repetition_found "abcdef" 2 2 = false := by
  refine ⟨?_, by decide, by decide⟩
  intro t L tol
  constructor
  · intro h
    obtain ⟨i, _, hp⟩ := List.any_eq_true.mp h
    exact ⟨(t.data.drop i).take L, of_decide_eq_true hp⟩
  · rintro ⟨p, hp⟩
    have hpos : 0 < patternCount t L p := Nat.lt_of_le_of_lt (Nat.zero_le _) hp
    unfold patternCount at hpos
    have hne : ((windowIdxs t.data L).filter
        (fun i => (t.data.drop i).take L == p)) ≠ [] := by
      intro hmt
      rw [hmt] at hpos
      simp at hpos
    obtain ⟨i, hi⟩ := List.exists_mem_of_ne_nil _ hne
    have hmem := (List.mem_filter.mp hi).1
    have heq : (t.data.drop i).take L = p := eq_of_beq (List.mem_filter.mp hi).2
    apply List.any_eq_true.mpr
    refine ⟨i, hmem, decide_eq_true ?_⟩
    rw [heq]
    exact hp

/-- Claim C2 counterexample: with an empty filtered context-aware stream,
the Chinese character `好` puts only the boundary space into the merged
output `char_list_whole` — the context-free token `hao3` is not used
there, contrary to the claim's fall-back clause. -/
theorem merged_drop_token_cex :
    is_chinese '好' = true ∧
    processLine ⟨fun s => [s], fun _ => ["hao3"], fun _ => []⟩ true "好"
      = some (⟨[" ", "hao3"], [" "], 1⟩, []) ∧
    (eaStep [] "hao3" '好' ⟨[], [], 0⟩).char_list_whole = [" "] ∧
    (eaStep [] "hao3" '好' ⟨[], [], 0⟩).char_list_whole ≠ [" ", "hao3"] := by
  refine ⟨by decide, by decide, by decide, by decide⟩

/-- Claim C2 (amended): for a Chinese-block character, the merged output
receives the context-aware stream token at the cursor when the cursor is
within the stream; when the cursor is at or past the end the merged
output receives no token for that character (only the boundary space) —
the context-free token goes only to the context-free sequence — and the
cursor advances in both cases, in both the pure-east-asian and the mixed
branch. -/
theorem merged_cursor_token_rule (cf : String → List String) (filtered : List String)
    (tok : String) (c : Char) (st : LineState) (hc : is_chinese c = true) :
    ((st.j < filtered.length →
        (eaStep filtered tok c st).char_list_whole
          = st.char_list_whole ++ [" ", filtered.getD st.j ""]) ∧
     (filtered.length ≤ st.j →
        (eaStep filtered tok c st).char_list_whole = st.char_list_whole ++ [" "]) ∧
     (eaStep filtered tok c st).j = st.j + 1 ∧
     (eaStep filtered tok c st).char_list = st.char_list ++ [" ", tok]) ∧
    ((st.j < filtered.length →
        (mixedStep cf filtered st c).char_list_whole
          = st.char_list_whole ++ [" ", filtered.getD st.j ""]) ∧
     (filtered.length ≤ st.j →
        (mixedStep cf filtered st c).char_list_whole = st.char_list_whole ++ [" "]) ∧
     (mixedStep cf filtered st c).j = st.j + 1 ∧
     (mixedStep cf filtered st c).char_list = st.char_list ++ [" "] ++ cf c.toString) := by
  have h256 : ¬ c.toNat < 256 := chinese_not_lt256 c hc
  constructor
  · refine ⟨?_, ?_, ?_, ?_⟩
    · intro hj
      simp [eaStep, hc, hj]
    · intro hj
      simp [eaStep, hc, Nat.not_lt.mpr hj]
    · simp [eaStep, hc]
    · simp [eaStep, hc]
  · refine ⟨?_, ?_, ?_, ?_⟩
    · intro hj
      simp [mixedStep, hc, h256, hj]
    · intro hj
      simp [mixedStep, hc, h256, Nat.not_lt.mpr hj]
    · simp [mixedStep, hc, h256]
    · simp [mixedStep, hc, h256]

/-- Witness for the amended claim C2 at concrete inputs. -/
theorem merged_cursor_token_rule_wit :
    (eaStep ["ni3"] "hao3" '好' ⟨[], [], 0⟩).char_list_whole = [" ", "ni3"] ∧
    (eaStep [] "hao3" '好' ⟨[], [], 0⟩).char_list_whole = [" "] := by
  constructor
  · have h := (merged_cursor_token_rule (fun _ => []) ["ni3"] "hao3" '好'
      ⟨[], [], 0⟩ (by decide)).1.1 (by decide)
    rw [h]
    decide
  · have h := (merged_cursor_token_rule (fun _ => []) [] "hao3" '好'
      ⟨[], [], 0⟩ (by decide)).1.2.1 (by decide)
    rw [h]
    decide

/-- Claim C4 counterexample: `shei2` matches the tone3 shape and survives
the filter, yet the stream used for alignment holds `shui2` in its place
— so the stream is not exactly the retained entries of the romanizer
output. -/
theorem filter_translation_cex :
    is_tone3_style "shei2" = true ∧
    (["shei2"].filter is_tone3_style) = ["shei2"] ∧
    filteredOf ["shei2"] = ["shui2"] ∧
    filteredOf ["shei2"] ≠ ["shei2"].filter is_tone3_style ∧
    processLine ⟨fun s => [s], fun _ => ["shei2"], fun _ => ["shei2"]⟩ true "谁"
      = some (⟨[" ", "shei2"], [" ", "shui2"], 1⟩, ["shui2"]) := by
  refine ⟨by decide, by decide, by decide, by decide, by decide⟩

/-- Claim C4 (amended): the stream used for alignment is the order-
preserving filter of the sentence-level output to tone3-shaped entries,
with each retained entry passed through the correction table — every
retained entry is either an original tone3-shaped entry other than
`shei2`, or the substitute `shui2`. -/
theorem filtered_stream_shape (sentence : List String) :
    filteredOf sentence = (sentence.filter is_tone3_style).map substShei ∧
    ∀ x ∈ filteredOf sentence,
      (x ∈ sentence.filter is_tone3_style ∧ x ≠ "shei2") ∨ x = "shui2" := by
  refine ⟨filteredOf_map sentence, ?_⟩
  intro x hx
  rw [filteredOf_map sentence] at hx
  obtain ⟨y, hy, hxy⟩ := List.mem_map.mp hx
  by_cases h : y = "shei2"
  · right
    rw [← hxy, h]
    rfl
  · left
    have hyy : substShei y = y := by simp [substShei, h]
    constructor
    · rw [← hxy, hyy]
      exact hy
    · rw [← hxy, hyy]
      exact h

/-- Claim C5 counterexample: the output ends in `":"`, which is neither a
space nor a quote, yet no boundary space is inserted before the literal
segment `"ab"` — the gate also treats the colon as a separator. -/
theorem boundary_space_colon_cex :
    convert_char_to_pinyin ⟨fun _ => ["a:", "ab"], fun _ => [], fun _ => []⟩ true ["a:ab"]
      = some ([["a", ":", "a", "b"]], none) ∧
    (":" : String) ≠ " " ∧ (":" : String) ≠ "\"" ∧ (":" : String) ≠ "\'" ∧
    (["a", ":", "a", "b"] : List String) ≠ ["a", ":", " ", "a", "b"] := by
  refine ⟨by decide, by decide, by decide, by decide, by decide⟩

/-- Claim C5 (amended): a literal segment of byte length greater than one,
appended to a non-empty output whose last element is not a substring of
`" :'\""` (space, colon, single or double quote), is preceded by exactly
one boundary space in both outputs; when the last element is such a
substring no space is inserted; and `"go客"` yields a boundary space
between `go` and the romanized token of the Chinese character. -/
theorem boundary_space_rule :
    (∀ (st : LineState) (seg : String) (lastTok : String),
        st.char_list.getLast? = some lastTok →
        1 < utf8ByteLen seg →
        listSub lastTok.data boundaryChars = false →
        (literalStep st seg).char_list
          = st.char_list ++ [" "] ++ seg.data.map Char.toString ∧
        (literalStep st seg).char_list_whole
          = st.char_list_whole ++ [" "] ++ seg.data.map Char.toString) ∧
    (∀ (st : LineState) (seg : String) (lastTok : String),
        st.char_list.getLast? = some lastTok →
        listSub lastTok.data boundaryChars = true →
        (literalStep st seg).char_list = st.char_list ++ seg.data.map Char.toString) ∧
    convert_char_to_pinyin ⟨fun _ => ["go", "客"], fun _ => ["ke4"], fun _ => ["ke4"]⟩ true ["go客"]
      = some ([["g", "o", " ", "ke4"]], none) := by
  refine ⟨?_, ?_, by decide⟩
  · intro st seg lastTok hlast hbl hsub
    have hd : decide (1 < utf8ByteLen seg) = true := decide_eq_true hbl
    constructor
    · simp [literalStep, hlast, hd, hsub]
    · simp [literalStep, hlast, hd, hsub]
  · intro st seg lastTok hlast hsub
    simp [literalStep, hlast, hsub]

/-- Claim C7: after filtering, every `shei2` entry of the sentence-level
output is replaced by `shui2` in the alignment stream, in place, and all
other entries are left unchanged. -/
theorem shei2_replacement (sentence : List String) :
    "shei2" ∉ filteredOf sentence ∧
    (filteredOf sentence).length = (sentence.filter is_tone3_style).length ∧
    ∀ i : Nat, (filteredOf sentence)[i]?
      = ((sentence.filter is_tone3_style)[i]?).map substShei := by
  refine ⟨?_, ?_, ?_⟩
  · intro hmem
    rw [filteredOf_map] at hmem
    obtain ⟨y, hy, hxy⟩ := List.mem_map.mp hmem
    by_cases h : y = "shei2"
    · rw [h] at hxy
      have hss : substShei "shei2" = "shui2" := rfl
      rw [hss] at hxy
      exact absurd hxy (by decide)
    · have hyy : substShei y = y := by simp [substShei, h]
      rw [hyy] at hxy
      exact h hxy
  · rw [filteredOf_map]
    simp
  · intro i
    rw [filteredOf_map, List.getElem?_map]

/-- The value the engine returns is decided by the last processed line
alone: the context-free lists with a diagnostic on a last-line mismatch,
the merged lists otherwise. -/
lemma convert_cases (C : Collab) (p : Bool) (ts : List String)
    (tLast : String) (st : LineState) (f : List String)
    (hlast : ts.getLast? = some tLast)
    (hok : ∀ t ∈ ts, (processLine C p t).isSome)
    (hline : processLine C p tLast = some (st, f)) :
    convert_char_to_pinyin C p ts =
      if st.j ≠ f.length
      then some (ts.map (lineCf C p), some (st.j, f.length))
      else some (ts.map (lineWhole C p), none) := by
  unfold convert_char_to_pinyin
  rw [processBatch_eq C p ts ⟨[], [], none⟩ hok]
  have hll : lineLast C p tLast = some (st.j, f) := by
    unfold lineLast
    rw [hline]
  simp only [hlast, hll, List.nil_append]

/-- Claim C1: for every non-empty batch, the engine returns the
context-free token sequences for the whole batch together with a
diagnostic carrying both counts exactly when the last processed line's
cursor differs from the length of that line's filtered context-aware
stream, and the merged sequences with no diagnostic otherwise — the
decision never looks at any non-final line, and no exception is raised. -/
theorem convert_batch_fallback_last_line (C : Collab) (p : Bool) (ts : List String)
    (tLast : String) (st : LineState) (f : List String)
    (hlast : ts.getLast? = some tLast)
    (hok : ∀ t ∈ ts, (processLine C p t).isSome)
    (hline : processLine C p tLast = some (st, f)) :
    convert_char_to_pinyin C p ts =
      if st.j ≠ f.length
      then some (ts.map (lineCf C p), some (st.j, f.length))
      else some (ts.map (lineWhole C p), none) :=
  convert_cases C p ts tLast st f hlast hok hline

/-- Witness for claim C1: a one-line batch that mismatches (cursor 1,
stream length 0) falls back to the context-free list with the diagnostic,
and a one-line batch that matches returns the merged list. -/
theorem convert_batch_fallback_last_line_wit :
    convert_char_to_pinyin ⟨fun s => [s], fun _ => ["hao3"], fun _ => []⟩ true ["好"]
      = some ([[" ", "hao3"]], some (1, 0)) ∧
    convert_char_to_pinyin ⟨fun s => [s], fun _ => ["hao3"], fun _ => []⟩ true ["a"]
      = some ([["a"]], none) := by
  constructor
  · have h := convert_batch_fallback_last_line ⟨fun s => [s], fun _ => ["hao3"], fun _ => []⟩
      true ["好"] "好" ⟨[" ", "hao3"], [" "], 1⟩ [] (by decide) (by decide) (by decide)
    rw [h]
    decide
  · have h := convert_batch_fallback_last_line ⟨fun s => [s], fun _ => ["hao3"], fun _ => []⟩
      true ["a"] "a" ⟨["a"], ["a"], 0⟩ [] (by decide) (by decide) (by decide)
    rw [h]
    decide

/-- Claim C3 counterexample: a two-line batch whose first line has one
Chinese character but an empty filtered stream (count 1 against length 0)
still gets its merged sequence returned, because only the last line is
checked — so the invariant does not hold for every line whose merged
sequence is returned. -/
theorem invariant_nonlast_line_cex :
    convert_char_to_pinyin ⟨fun s => [s], fun _ => ["hao3"], fun _ => []⟩ true ["好", "a"]
      = some ([[" "], ["a"]], none) ∧
    processLine ⟨fun s => [s], fun _ => ["hao3"], fun _ => []⟩ true "好"
      = some (⟨[" ", "hao3"], [" "], 1⟩, []) ∧
    pyTranslate "好" = "好" ∧
    chineseCount ["好"] = 1 ∧
    (1 : Nat) ≠ ([] : List String).length := by
  refine ⟨by decide, by decide, by decide, by decide, by decide⟩

/-- Claim C3 (amended): when the merged sequences are returned, the LAST
processed line's cursor equals the length of its filtered context-aware
stream, and that cursor equals the number of Chinese-block characters
among the line's segments; non-final lines are not constrained. -/
theorem invariant_last_line (C : Collab) (p : Bool) (ts : List String)
    (tLast : String) (res : List (List String))
    (hlast : ts.getLast? = some tLast)
    (hok : ∀ t ∈ ts, (processLine C p t).isSome)
    (hres : convert_char_to_pinyin C p ts = some (res, none)) :
    ∃ (st : LineState) (f : List String),
      processLine C p tLast = some (st, f) ∧
      st.j = f.length ∧
      st.j = chineseCount (C.segment (pyTranslate tLast)) ∧
      f = filteredOf (C.ca (pyTranslate tLast)) := by
  have hne : ts ≠ [] := by
    intro h0
    rw [h0] at hlast
    exact Option.noConfusion hlast
  have htmem : tLast ∈ ts := by
    have h1 := List.getLast?_eq_getLast ts hne
    rw [h1] at hlast
    have h2 := Option.some.inj hlast
    rw [← h2]
    exact List.getLast_mem hne
  obtain ⟨pr, hline⟩ := Option.isSome_iff_exists.mp (hok tLast htmem)
  obtain ⟨st, f⟩ := pr
  have hconv := convert_cases C p ts tLast st f hlast hok hline
  have hj : st.j = f.length := by
    by_contra hjn
    rw [hconv, if_pos hjn] at hres
    have h3 := Option.some.inj hres
    exact Option.noConfusion (congrArg Prod.snd h3)
  obtain ⟨hcnt, hf⟩ := processLine_j C p tLast st f hline
  exact ⟨st, f, hline, hj, hcnt, hf⟩

/-- Witness for the amended claim C3 at a concrete matching batch. -/
theorem invariant_last_line_wit :
    ∃ (st : LineState) (f : List String),
      processLine ⟨fun s => [s], fun _ => ["hao3"], fun _ => []⟩ true "a" = some (st, f) ∧
      st.j = f.length ∧
      st.j = chineseCount [pyTranslate "a"] ∧
      f = filteredOf [] :=
  invariant_last_line ⟨fun s => [s], fun _ => ["hao3"], fun _ => []⟩ true ["a"] "a" [["a"]]
    (by decide) (by decide) (by decide)

/-- A segment of at most one byte never fires the boundary-space gate. -/
lemma literalStep_short (st : LineState) (seg : String) (h : utf8ByteLen seg ≤ 1) :
    literalStep st seg =
      { st with
        char_list := st.char_list ++ seg.data.map Char.toString,
        char_list_whole := st.char_list_whole ++ seg.data.map Char.toString } := by
  have hd : decide (1 < utf8ByteLen seg) = false := by
    simp
    omega
  unfold literalStep
  cases hg : st.char_list.getLast? with
  | none => simp [hg]
  | some lastTok => simp [hg, hd]

/-- Folding the literal branch over gate-free segments concatenates their
characters. -/
lemma foldlitStep_short : ∀ (segs : List String) (st : LineState),
    (∀ seg ∈ segs, utf8ByteLen seg ≤ 1) →
    segs.foldl literalStep st =
      { st with
        char_list := st.char_list ++ ((segs.map String.data).flatten).map Char.toString,
        char_list_whole :=
          st.char_list_whole ++ ((segs.map String.data).flatten).map Char.toString } := by
  intro segs
  induction segs with
  | nil =>
    intro st h
    simp
  | cons seg segs ih =>
    intro st h
    rw [List.foldl_cons, literalStep_short st seg (h seg (List.mem_cons_self _ _))]
    rw [ih _ (fun x hx => h x (List.mem_cons_of_mem _ hx))]
    simp [List.map_append, List.append_assoc]

/-- Claim C6 counterexample: the line `abéc` contains no East-Asian
(three-byte) character, yet its output is not the literal-segment
pass-through of its segments — the mixed branch, which handles the
two-byte `é`, inserts no boundary space where the literal rule would. -/
theorem literal_passthrough_cex :
    (∀ c ∈ "abéc".data, utf8CharSize c ≠ 3) ∧
    convert_char_to_pinyin ⟨fun _ => ["ab", "éc"], fun _ => [], fun _ => []⟩ true ["abéc"]
      = some ([["a", "b", "é", "c"]], none) ∧
    literalPassThrough ["ab", "éc"] = ["a", "b", " ", "é", "c"] ∧
    (["a", "b", "é", "c"] : List String) ≠ ["a", "b", " ", "é", "c"] := by
  refine ⟨by decide, by decide, by decide, by decide⟩

/-- Claim C6 (amended): for every input line whose punctuation-normalized
text is pure ASCII, every segment takes the literal branch, so the line's
output (context-free and merged alike, the cursor never moving) is
exactly the literal-segment pass-through of its segments, and the batch
call returns it whichever side of the mismatch check is taken. -/
theorem ascii_literal_passthrough (C : Collab) (p : Bool) (text : String) (segs : List String)
    (hseg : C.segment (pyTranslate text) = segs)
    (hjoin : String.join segs = pyTranslate text)
    (hascii : ∀ c ∈ (pyTranslate text).data, c.toNat < 0x80) :
    processLine C p text
      = some (⟨literalPassThrough segs, literalPassThrough segs, 0⟩,
              filteredOf (C.ca (pyTranslate text))) ∧
    (convert_char_to_pinyin C p [text]).map Prod.fst = some [literalPassThrough segs] := by
  have hlit : ∀ seg ∈ segs, utf8ByteLen seg = seg.length := by
    intro seg hs
    apply literal_of_ascii
    intro c hc
    exact hascii c (mem_data_of_join segs (pyTranslate text) hjoin seg hs c hc)
  have hfold := foldSegs_literal p C.cf (filteredOf (C.ca (pyTranslate text))) segs
    (⟨[], [], 0⟩ : LineState) hlit
  have hS : segs.foldl literalStep (⟨[], [], 0⟩ : LineState)
      = ⟨literalPassThrough segs, literalPassThrough segs, 0⟩ := by
    have h1 := foldlitStep_preserve segs (⟨[], [], 0⟩ : LineState) rfl
    have h2 := foldlitStep_j segs (⟨[], [], 0⟩ : LineState)
    rcases hE : segs.foldl literalStep (⟨[], [], 0⟩ : LineState) with ⟨cl, clw, jj⟩
    rw [hE] at h1 h2
    have h3 : literalPassThrough segs = cl := by
      unfold literalPassThrough
      rw [hE]
    simp only at h1 h2
    rw [h3, ← h1, h2]
  have hline : processLine C p text
      = some (⟨literalPassThrough segs, literalPassThrough segs, 0⟩,
              filteredOf (C.ca (pyTranslate text))) := by
    unfold processLine
    rw [hseg, hfold, hS]
  refine ⟨hline, ?_⟩
  have hok : ∀ t ∈ [text], (processLine C p t).isSome := by
    intro t ht
    rw [List.mem_singleton] at ht
    subst ht
    rw [hline]
    rfl
  have hconv := convert_cases C p [text] text
    ⟨literalPassThrough segs, literalPassThrough segs, 0⟩
    (filteredOf (C.ca (pyTranslate text)))
    (List.getLast?_singleton text) hok hline
  rw [hconv]
  by_cases hf : (0 : Nat) ≠ (filteredOf (C.ca (pyTranslate text))).length
  · rw [if_pos hf]
    simp [lineCf, hline]
  · rw [if_neg hf]
    simp [lineWhole, hline]

/-- Witness for the amended claim C6 at a concrete ASCII line. -/
theorem ascii_literal_passthrough_wit :
    processLine ⟨fun _ => ["ab", " ", "cd"], fun _ => [], fun _ => []⟩ true "ab cd"
      = some (⟨literalPassThrough ["ab", " ", "cd"], literalPassThrough ["ab", " ", "cd"], 0⟩,
              filteredOf []) ∧
    (convert_char_to_pinyin ⟨fun _ => ["ab", " ", "cd"], fun _ => [], fun _ => []⟩ true
        ["ab cd"]).map Prod.fst
      = some [literalPassThrough ["ab", " ", "cd"]] :=
  ascii_literal_passthrough ⟨fun _ => ["ab", " ", "cd"], fun _ => [], fun _ => []⟩ true
    "ab cd" ["ab", " ", "cd"] rfl (by decide) (by decide)

/-- Claim C9 counterexample: the engine's output for `go客` is the token
sequence `["g", "o", " ", "ke4"]`, which contains no Chinese-block
character; re-running the engine on its joined text `"go ke4"` yields
`["g", "o", " ", "k", "e", "4"]` — the same text, but not the same
sequence, so the engine is not idempotent on its own output. -/
theorem engine_rerun_cex :
    convert_char_to_pinyin ⟨fun _ => ["go", "客"], fun _ => ["ke4"], fun _ => ["ke4"]⟩ true
        ["go客"]
      = some ([["g", "o", " ", "ke4"]], none) ∧
    (∀ s ∈ (["g", "o", " ", "ke4"] : List String), ∀ c ∈ s.data, is_chinese c = false) ∧
    String.join ["g", "o", " ", "ke4"] = "go ke4" ∧
    convert_char_to_pinyin ⟨fun _ => ["go", " ", "ke4"], fun _ => [], fun _ => []⟩ true
        ["go ke4"]
      = some ([["g", "o", " ", "k", "e", "4"]], none) ∧
    (["g", "o", " ", "k", "e", "4"] : List String) ≠ ["g", "o", " ", "ke4"] := by
  refine ⟨by decide, by decide, by decide, by decide, by decide⟩

/-- Claim C9 (amended): on an ASCII text unchanged by punctuation
normalization, segmented into pieces of at most one character (so that
the boundary-space gate never fires), the engine returns the
character-by-character split of the text, whose concatenation is the text
itself — idempotence holds at the level of the joined text, not of the
token sequence. -/
theorem engine_rerun_ascii (C : Collab) (p : Bool) (s : String) (segs : List String)
    (htrans : pyTranslate s = s)
    (hascii : ∀ c ∈ s.data, c.toNat < 0x80)
    (hseg : C.segment s = segs)
    (hjoin : String.join segs = s)
    (hshort : ∀ seg ∈ segs, seg.length ≤ 1) :
    (convert_char_to_pinyin C p [s]).map Prod.fst = some [s.data.map Char.toString] ∧
    String.join (s.data.map Char.toString) = s := by
  have hsegascii : ∀ seg ∈ segs, ∀ c ∈ seg.data, c.toNat < 0x80 := by
    intro seg hs c hc
    exact hascii c (mem_data_of_join segs s hjoin seg hs c hc)
  have hlit : ∀ seg ∈ segs, utf8ByteLen seg = seg.length := fun seg hs =>
    literal_of_ascii seg (hsegascii seg hs)
  have hshortB : ∀ seg ∈ segs, utf8ByteLen seg ≤ 1 := by
    intro seg hs
    rw [hlit seg hs]
    exact hshort seg hs
  have hflat : ((segs.map String.data).flatten) = s.data := by
    rw [← join_data, hjoin]
  have hfold := foldSegs_literal p C.cf (filteredOf (C.ca s)) segs
    (⟨[], [], 0⟩ : LineState) hlit
  have hS := foldlitStep_short segs (⟨[], [], 0⟩ : LineState) hshortB
  rw [hflat] at hS
  have hline : processLine C p s
      = some (⟨s.data.map Char.toString, s.data.map Char.toString, 0⟩, filteredOf (C.ca s)) := by
    unfold processLine
    rw [htrans, hseg, hfold, hS]
    rfl
  have hok : ∀ t ∈ [s], (processLine C p t).isSome := by
    intro t ht
    rw [List.mem_singleton] at ht
    subst ht
    rw [hline]
    rfl
  have hconv := convert_cases C p [s] s
    ⟨s.data.map Char.toString, s.data.map Char.toString, 0⟩
    (filteredOf (C.ca s)) (List.getLast?_singleton s) hok hline
  constructor
  · rw [hconv]
    by_cases hf : (0 : Nat) ≠ (filteredOf (C.ca s)).length
    · rw [if_pos hf]
      simp [lineCf, hline]
    · rw [if_neg hf]
      simp [lineWhole, hline]
  · exact join_map_toString s

/-- Witness for the amended claim C9 at a concrete ASCII text. -/
theorem engine_rerun_ascii_wit :
    (convert_char_to_pinyin ⟨fun _ => ["a", "b"], fun _ => [], fun _ => []⟩ true
        ["ab"]).map Prod.fst
      = some ["ab".data.map Char.toString] ∧
    String.join ("ab".data.map Char.toString) = "ab" :=
  engine_rerun_ascii ⟨fun _ => ["a", "b"], fun _ => [], fun _ => []⟩ true "ab" ["a", "b"]
    (by decide) (by decide) rfl (by decide) (by decide)
